import Mathlib

/-!
# SafeWord profanity-detection API — verification development

Shallow embedding of `src/index.ts` (classes `TextProcessor` and
`ProfanityDetectorAPI`) of the `textocerto-api` repository.

Modelling conventions:
* Strings are `List Char`.  JavaScript's `\w` character class (of the
  sanitization regex `/[^\w\s]/g`, no `u` flag) is the ASCII set
  `[A-Za-z0-9_]`; `\s` is modelled by the ASCII whitespace characters
  (space, tab, LF, VT, FF, CR).  `String.prototype.toLowerCase` is modelled
  by ASCII `Char.toLower`; non-ASCII letters are removed by the
  sanitization regex either way.
* Similarity scores are `ℚ`.
* The Upstash vector index is an oracle function
  `List Char → Except Unit (Option OracleHit)`: `Except.error` models a
  rejected promise (the `index.query` call throwing), `Except.ok none`
  models a resolved query whose result array is empty (`[vector]`
  destructures to `undefined`), and `Except.ok (some hit)` a resolved
  query with one hit whose `score` and `metadata.text` fields may each be
  absent (`Option`).
* The JavaScript `Map` used for `flaggedContent` is an association list
  whose `set` keeps the insertion position of an existing key and appends
  new keys at the end — exactly the iteration order `Map.prototype.forEach`
  uses.  Under `Promise.all` the insertion order among same-phase lookups
  is completion order; the model uses program order (all word events, in
  word order, then all chunk events, in chunk order), and the lemmas about
  recording are stated over arbitrary event sequences so that they cover
  every completion order.
-/

namespace SafeWord

/-- A string of the TypeScript program, as a list of characters. -/
abbrev Str := List Char

/-- JS `\w` (ASCII, as in the un-flagged regex `/[^\w\s]/g`): alphanumerics
and underscore. -/
def isWordCharJS (c : Char) : Bool :=
  c.isAlphanum || c = '_'

/-- JS `\s`, restricted to the ASCII whitespace characters: tab (9), LF (10),
VT (11), FF (12), CR (13) and space (32). -/
def isSpaceJS (c : Char) : Bool :=
  (9 ≤ c.toNat && c.toNat ≤ 13) || c = ' '

/-- `String.prototype.toLowerCase`, on the ASCII range: map `A`–`Z` (codes
65–90) to `a`–`z` (codes 97–122), leave everything else unchanged. -/
def jsToLower (c : Char) : Char :=
  if 65 ≤ c.toNat ∧ c.toNat ≤ 90 then Char.ofNat (c.toNat + 32) else c

/-- `String.prototype.trim`: drop trailing whitespace (via reverse), then
leading whitespace. -/
def jsTrim (s : Str) : Str :=
  ((s.reverse.dropWhile isSpaceJS).reverse).dropWhile isSpaceJS

/-- `TextProcessor.sanitizeText`: lowercase, delete every character that is
neither `\w` nor `\s` (regex `/[^\w\s]/g` replaced by the empty string),
then trim. -/
def sanitizeText (text : Str) : Str :=
  jsTrim ((text.map jsToLower).filter (fun c => isWordCharJS c || isSpaceJS c))

/-- One step (from the right) of `jsSplitWs`.  The accumulator is the list of
segments produced so far; its head is the segment currently being grown.  A
whitespace character opens a fresh (empty) head segment unless the head is
already the empty segment freshly opened by the whitespace run's rightmost
character — this collapses maximal runs, matching the regex `/\s+/`. -/
def jsSplitStep (c : Char) (acc : List Str) : List Str :=
  if isSpaceJS c then
    match acc with
    | [] => [[], []]
    | [seg] => [[], seg]
    | [] :: rest => [] :: rest
    | seg :: rest => [] :: seg :: rest
  else
    match acc with
    | [] => [[c]]
    | seg :: rest => (c :: seg) :: rest

/-- JS `str.split(/\s+/)`: segments between maximal whitespace runs, with an
empty leading (resp. trailing) segment when the string starts (resp. ends)
with whitespace, and `[""]` on the empty string. -/
def jsSplitWs (s : Str) : List Str :=
  s.foldr jsSplitStep [[]]

/-- `TextProcessor.splitIntoWords`: `text.split(/\s+/).filter(w => w.length > 0)`. -/
def splitIntoWords (text : Str) : List Str :=
  (jsSplitWs text).filter (fun w => 0 < w.length)

/-- `ALLOWED_WORDS.GENERAL`: the general allowlist (a `Set<string>`). -/
def ALLOWED_GENERAL : List Str :=
  [('b' :: 'l' :: 'a' :: 'c' :: 'k' :: []), ('s' :: 'w' :: 'e' :: 'a' :: 'r' :: [])]

/-- `ALLOWED_WORDS.CONTEXT_SPECIFIC`: label → allowed context substrings. -/
def CONTEXT_SPECIFIC : List (Str × List Str) :=
  [(('b' :: 'l' :: 'a' :: 'c' :: 'k' :: []),
    [('b' :: 'l' :: 'a' :: 'c' :: 'k' :: ' ' :: 'b' :: 'e' :: 'l' :: 't' :: []),
     ('b' :: 'l' :: 'a' :: 'c' :: 'k' :: ' ' :: 'c' :: 'o' :: 'f' :: 'f' :: 'e' :: 'e' :: []),
     ('b' :: 'l' :: 'a' :: 'c' :: 'k' :: ' ' :: 'f' :: 'r' :: 'i' :: 'd' :: 'a' :: 'y' :: [])])]

/-- Lookup in an association list by decidable equality (JS `Map.get`). -/
def lookupKeyList (k : Str) : List (Str × List Str) → Option (List Str)
  | [] => none
  | (k', v) :: rest => if k' = k then some v else lookupKeyList k rest

/-- JS `context.includes(sub)`: `sub` occurs contiguously in `context`. -/
def strIncludes (context sub : Str) : Bool :=
  decide (sub <:+: context)

/-- `TextProcessor.isAllowedInContext`: look the word up in
`CONTEXT_SPECIFIC`; absent ⇒ `false`; present ⇒ `true` iff some listed
allowed context is a substring of `context`. -/
def isAllowedInContext (word context : Str) : Bool :=
  match lookupKeyList word CONTEXT_SPECIFIC with
  | none => false
  | some contextSpecific => contextSpecific.any (fun a => strIncludes context a)

/-! ## Configuration (`CONFIG`, lines 35–43) -/

def CONFIG_CHUNK_SIZE : Nat := 25

def CONFIG_CHUNK_OVERLAP : Nat := 8

/-- 0.95, written as the reduced fraction 19/20 so that the kernel can
evaluate comparisons against it (`theorem CONFIG_WORD_THRESHOLD_eq` below
restates it as 95/100). -/
def CONFIG_WORD_THRESHOLD : ℚ := ⟨19, 20, by decide, by decide⟩

/-- 0.96, written as the reduced fraction 24/25 (see
`CONFIG_SEMANTIC_THRESHOLD_eq`). -/
def CONFIG_SEMANTIC_THRESHOLD : ℚ := ⟨24, 25, by decide, by decide⟩

def CONFIG_MAX_WORDS : Nat := 35

def CONFIG_MAX_CHARS : Nat := 1000

/-- 0.96 as a concrete similarity score. -/
def score096 : ℚ := ⟨24, 25, by decide, by decide⟩

/-- 0.97 as a concrete similarity score. -/
def score097 : ℚ := ⟨97, 100, by decide, by decide⟩

/-- 0.98 as a concrete similarity score. -/
def score098 : ℚ := ⟨49, 50, by decide, by decide⟩

/-- 0.99 as a concrete similarity score. -/
def score099 : ℚ := ⟨99, 100, by decide, by decide⟩

/-! ## The semantic chunker (spec-modelled)

Modelled from the spec: `TextProcessor.splitIntoSemantics` delegates the
actual chunking to `RecursiveCharacterTextSplitter` from the `langchain`
dependency (configured with `chunkSize 25`, `separators [' ']`,
`chunkOverlap 8`), whose code is not part of this repository.  Following
§4.2 of the spec it is modelled as a left-to-right sliding-window chunker
over words: greedily pack whole words (each carried with its trailing
whitespace run, so chunks are contiguous spans of the input) while the
accumulated length stays within the target size, keep an oversized word
whole rather than splitting it mid-word, and start the next window early
enough to re-include up to `CHUNK_OVERLAP` characters of overlap. -/

/-- One step (from the right) of `wordsAndGaps`.  The accumulator is
`(leading whitespace run, (word, trailing whitespace run) pairs)`. -/
def wagStep (c : Char) (acc : Str × List (Str × Str)) : Str × List (Str × Str) :=
  if isSpaceJS c then
    (c :: acc.1, acc.2)
  else
    match acc with
    | ([], (w, tg) :: rest) => ([], (c :: w, tg) :: rest)
    | (g, pairs) => ([], ([c], g) :: pairs)

/-- Decompose a string into a leading whitespace run followed by
(word, trailing whitespace run) pairs; concatenating everything back
gives the original string. -/
def wordsAndGaps (s : Str) : Str × List (Str × Str) :=
  s.foldr wagStep ([], [])

/-- Concatenation of the words and gaps of a pair list. -/
def wagFlatten (pairs : List (Str × Str)) : Str :=
  (pairs.map (fun p => p.1 ++ p.2)).flatten

/-- Length of a (word, gap) pair. -/
def pairLen (p : Str × Str) : Nat :=
  p.1.length + p.2.length

/-- How many leading pairs the next chunk takes: always at least one (an
oversized word is kept whole), then more while the accumulated length stays
within `CONFIG_CHUNK_SIZE`.  `len` is the accumulated length, `n` the number
of pairs taken so far. -/
def fitGo : List (Str × Str) → Nat → Nat → Nat
  | [], _, n => n
  | p :: ps, len, n =>
    if n = 0 then fitGo ps (len + pairLen p) 1
    else if len + pairLen p ≤ CONFIG_CHUNK_SIZE then fitGo ps (len + pairLen p) (n + 1)
    else n

def fitCount (parts : List (Str × Str)) : Nat :=
  fitGo parts 0 0

/-- How many trailing pairs of the freshly emitted chunk (passed reversed)
fit within the `CONFIG_CHUNK_OVERLAP` budget. -/
def ovlGo : List (Str × Str) → Nat → Nat
  | [], _ => 0
  | p :: ps, len =>
    if len + pairLen p ≤ CONFIG_CHUNK_OVERLAP then 1 + ovlGo ps (len + pairLen p) else 0

/-- Overlap carried into the next window: at most the overlap budget's worth
of trailing pairs, and strictly fewer pairs than the whole chunk. -/
def ovlCount (taken : List (Str × Str)) : Nat :=
  min (ovlGo taken.reverse 0) (taken.length - 1)

/-- The sliding window itself; `fuel` bounds the number of emitted chunks
(each step consumes at least one pair, so `parts.length` is enough fuel). -/
def chunkGo : Nat → List (Str × Str) → List Str
  | 0, _ => []
  | _, [] => []
  | fuel + 1, p :: ps =>
    let parts := p :: ps
    let k := fitCount parts
    let taken := parts.take k
    let step := max 1 (k - ovlCount taken)
    if parts.length ≤ k then [wagFlatten taken]
    else wagFlatten taken :: chunkGo fuel (parts.drop step)

def chunkPairs (parts : List (Str × Str)) : List Str :=
  chunkGo parts.length parts

/-- `TextProcessor.splitIntoSemantics`: one word or fewer ⇒ no chunks;
otherwise chunk the text (spec-modelled chunker, see above).  The input is
sanitized, hence trimmed, so its leading whitespace run is empty and the
(word, gap) pairs carry the whole text. -/
def splitIntoSemantics (text : Str) : List Str :=
  if (splitIntoWords text).length ≤ 1 then []
  else chunkPairs (wordsAndGaps text).2

/-- `TextProcessor.splitText`. -/
def splitText (text : Str) : List Str × List Str :=
  (splitIntoWords text, splitIntoSemantics text)

/-! ## The similarity oracle (external collaborator, interface only) -/

/-- One hit of the vector index: `score` and `metadata.text` may each be
absent (`vector.score` and `vector.metadata?.text` are both optional). -/
structure OracleHit where
  score : Option ℚ
  text : Option Str
deriving DecidableEq

/-- The vector index, as seen through
`index.query({topK: 1, data: unit, includeMetadata: true})`:
`Except.error` is a rejected promise (the call throwing /
the backend unavailable), `Except.ok none` a resolved call whose result
array is empty, `Except.ok (some hit)` a resolved call with one hit. -/
abbrev Oracle := Str → Except Unit (Option OracleHit)

/-- Did this oracle call throw? -/
def isThrow (r : Except Unit (Option OracleHit)) : Bool :=
  match r with
  | .error _ => true
  | .ok _ => false

/-! ## `ProfanityDetectorAPI.analyzeContent` (lines 192–259) -/

/-- `FlaggedContent`. -/
structure FlaggedContent where
  score : ℚ
  context : Str
deriving DecidableEq

/-- Key of the `flaggedContent` map: `vector.metadata?.text`, which is
`undefined` (`none`) when the hit carries no metadata text. -/
abbrev FlagKey := Option Str

/-- `FlaggedResult`. -/
structure FlaggedResult where
  flag : FlagKey
  details : FlaggedContent
deriving DecidableEq

/-- `TextAnalysisResult` (the optional fields are `undefined` = `none` on a
clean result). -/
structure TextAnalysisResult where
  isImproprio : Bool
  pontuacao : ℚ
  flag : Option Str
  contexto : Option Str
deriving DecidableEq

/-- The context check as performed at line 213: the key passed to
`isAllowedInContext` is `vector.metadata?.text`; when that is `undefined`
the `Map.get` lookup inside misses every (string) key, so the check is
`false`. -/
def isAllowedInContextKey (key : FlagKey) (context : Str) : Bool :=
  match key with
  | none => false
  | some w => isAllowedInContext w context

/-- What the word-level lookup of one word records (lines 202–220): skip
entirely when the word is in the general allowlist; otherwise query, and on
a resolved hit whose score is present, truthy and strictly above
`WORD_THRESHOLD`, record `(label, {score, context: word})` unless the label
is allowed in the full original context.  A thrown call records nothing by
itself (its effect on the request is `wordThrows` below). -/
def wordEvent (oracle : Oracle) (originalContext word : Str) :
    Option (FlagKey × FlaggedContent) :=
  if word ∈ ALLOWED_GENERAL then none
  else
    match oracle word with
    | .error _ => none
    | .ok none => none
    | .ok (some hit) =>
      match hit.score with
      | none => none
      | some s =>
        if s ≠ 0 ∧ CONFIG_WORD_THRESHOLD < s then
          if isAllowedInContextKey hit.text originalContext then none
          else some (hit.text, ⟨s, word⟩)
        else none

/-- What the lookup of one semantic chunk records (lines 226–240): query
unconditionally, and on a resolved hit whose score is present, truthy and
strictly above `SEMANTIC_THRESHOLD`, record `(label, {score, context:
chunk})` — no allowlist check of any kind. -/
def semanticEvent (oracle : Oracle) (chunk : Str) :
    Option (FlagKey × FlaggedContent) :=
  match oracle chunk with
  | .error _ => none
  | .ok none => none
  | .ok (some hit) =>
    match hit.score with
    | none => none
    | some s =>
      if s ≠ 0 ∧ CONFIG_SEMANTIC_THRESHOLD < s then some (hit.text, ⟨s, chunk⟩)
      else none

/-- Does the word-level phase of the request reject?  A word in the general
allowlist returns before querying, so its oracle entry is irrelevant; any
other word whose query throws rejects the whole `Promise.all`. -/
def wordThrows (oracle : Oracle) (word : Str) : Bool :=
  !(decide (word ∈ ALLOWED_GENERAL)) && isThrow (oracle word)

/-- `Map.prototype.set` on an insertion-ordered association list: an
existing key keeps its position and gets the new value, a new key is
appended. -/
def mapSet (m : List (FlagKey × FlaggedContent)) (k : FlagKey) (v : FlaggedContent) :
    List (FlagKey × FlaggedContent) :=
  if m.any (fun p => p.1 = k) then m.map (fun p => if p.1 = k then (k, v) else p)
  else m ++ [(k, v)]

/-- `Map.prototype.get`. -/
def mapGet (k : FlagKey) : List (FlagKey × FlaggedContent) → Option FlaggedContent
  | [] => none
  | (k', v) :: rest => if k' = k then some v else mapGet k rest

/-- Fold one recorded event into the map. -/
def recordStep (m : List (FlagKey × FlaggedContent)) (e : FlagKey × FlaggedContent) :
    List (FlagKey × FlaggedContent) :=
  mapSet m e.1 e.2

/-- Play a sequence of record events into an (initially empty) map. -/
def recordEvents (events : List (FlagKey × FlaggedContent)) :
    List (FlagKey × FlaggedContent) :=
  events.foldl recordStep []

/-- The record events of one request, in program order: all word events in
word order, then — only when any chunks exist (line 224) — all chunk events
in chunk order.  (Under `Promise.all` the completion order among the word
events, and among the chunk events, is nondeterministic; the lemmas about
`recordStep` folds are stated over arbitrary event sequences and therefore
cover every completion order.) -/
def requestEvents (oracle : Oracle) (words semantics : List Str)
    (originalContext : Str) : List (FlagKey × FlaggedContent) :=
  words.filterMap (wordEvent oracle originalContext) ++
    (if 0 < semantics.length then semantics.filterMap (semanticEvent oracle) else [])

/-- The `flaggedContent` map at the end of a request that did not throw. -/
def flaggedSet (oracle : Oracle) (words semantics : List Str)
    (originalContext : Str) : List (FlagKey × FlaggedContent) :=
  recordEvents (requestEvents oracle words semantics originalContext)

/-- `ProfanityDetectorAPI.findHighestScore` (lines 178–190): iterate the
map in insertion order keeping the first entry whose score strictly exceeds
the running maximum, which starts at -1. -/
def fhsGo : List (FlagKey × FlaggedContent) → Option FlaggedResult → ℚ → Option FlaggedResult
  | [], highest, _ => highest
  | (flag, details) :: rest, highest, maxScore =>
    if maxScore < details.score then fhsGo rest (some ⟨flag, details⟩) details.score
    else fhsGo rest highest maxScore

def findHighestScore (m : List (FlagKey × FlaggedContent)) : Option FlaggedResult :=
  fhsGo m none (-1)

/-- Lines 246–258: the emitted result. -/
def buildResult : Option FlaggedResult → TextAnalysisResult
  | some highest => ⟨true, highest.details.score, highest.flag, some highest.details.context⟩
  | none => ⟨false, 0, none, none⟩

/-- `ProfanityDetectorAPI.analyzeContent`: if any issued word query throws,
the word-phase `Promise.all` rejects and the whole call errors (the route
handler turns that into a 500 response); likewise for the chunk phase,
which only runs when chunks exist.  Otherwise aggregate the recorded events
and emit the result. -/
def analyzeContent (oracle : Oracle) (words semantics : List Str)
    (originalContext : Str) : Except Unit TextAnalysisResult :=
  if words.any (wordThrows oracle) then .error ()
  else if 0 < semantics.length ∧ semantics.any (fun c => isThrow (oracle c)) then .error ()
  else .ok (buildResult (findHighestScore (flaggedSet oracle words semantics originalContext)))

/-! ## Request validation and the route handler (lines 129–176) -/

inductive ValidationError
  /-- Status 400: `!message` (the message is the empty string / absent). -/
  | missingMessage
  /-- Status 413: over the word or character limit. -/
  | limitExceeded
deriving DecidableEq

/-- `ProfanityDetectorAPI.validateRequest`: `!message` rejects with 400;
then `message.split(/\s+/).length > MAX_WORDS || message.length > MAX_CHARS`
rejects with 413.  Note the word count is the raw `split(/\s+/)` length,
which includes an empty segment at either boundary when the message starts
or ends with whitespace, and the emptiness test is JS falsiness of the raw
string — not emptiness after trimming. -/
def validateRequest (message : Str) : Option ValidationError :=
  if message.length = 0 then some .missingMessage
  else if CONFIG_MAX_WORDS < (jsSplitWs message).length ∨ CONFIG_MAX_CHARS < message.length then
    some .limitExceeded
  else none

deriving instance DecidableEq for Except

inductive HandleOutcome
  | rejected (e : ValidationError)
  | analyzed (r : Except Unit TextAnalysisResult)
deriving DecidableEq

/-- `ProfanityDetectorAPI.handleDetection` (lines 161–176), transport
concerns (Content-Type check, JSON parsing, env plumbing) elided: validate,
then sanitize, split, and analyze. -/
def handleDetection (oracle : Oracle) (message : Str) : HandleOutcome :=
  match validateRequest message with
  | some e => .rejected e
  | none =>
    let sanitizedMessage := sanitizeText message
    let parts := splitText sanitizedMessage
    .analyzed (analyzeContent oracle parts.1 parts.2 sanitizedMessage)

/-! ## Concrete oracles for closed instances -/

/-- An index with no relevant entries: every query resolves empty. -/
def nullOracle : Oracle := fun _ => Except.ok none

/-- The query for `aa` throws; the query for `bb` resolves with a 0.99 hit
labelled `xx`. -/
def throwOracle : Oracle := fun u =>
  if u = ('a' :: 'a' :: []) then Except.error ()
  else if u = ('b' :: 'b' :: []) then
    Except.ok (some ⟨some score099, some ('x' :: 'x' :: [])⟩)
  else Except.ok none

/-- `uu` matches label `xx` at 0.97 and `vv` matches label `yy` at 0.98;
everything else resolves empty. -/
def twoLabelOracle : Oracle := fun u =>
  if u = ('u' :: 'u' :: []) then
    Except.ok (some ⟨some score097, some ('x' :: 'x' :: [])⟩)
  else if u = ('v' :: 'v' :: []) then
    Except.ok (some ⟨some score098, some ('y' :: 'y' :: [])⟩)
  else Except.ok none

/-- Every query resolves with a 0.99 hit labelled `black`. -/
def blackOracle : Oracle := fun _ =>
  Except.ok (some ⟨some score099, some ('b' :: 'l' :: 'a' :: 'c' :: 'k' :: [])⟩)

/-! ## Lemmas: the flagged-content map -/

theorem mem_mapSet {m : List (FlagKey × FlaggedContent)} {k : FlagKey}
    {v : FlaggedContent} {e : FlagKey × FlaggedContent}
    (h : e ∈ mapSet m k v) : e ∈ m ∨ e = (k, v) := by
  unfold mapSet at h
  split at h
  · rcases List.mem_map.mp h with ⟨p, hp, hpe⟩
    by_cases hk : p.1 = k
    · right; simp only [if_pos hk] at hpe; exact hpe.symm
    · left; simp only [if_neg hk] at hpe; exact hpe ▸ hp
  · rcases List.mem_append.mp h with h' | h'
    · left; exact h'
    · right; simpa using h'

theorem mem_foldl_recordStep {evs : List (FlagKey × FlaggedContent)}
    {m : List (FlagKey × FlaggedContent)} {e : FlagKey × FlaggedContent}
    (h : e ∈ List.foldl recordStep m evs) : e ∈ m ∨ e ∈ evs := by
  induction evs generalizing m with
  | nil => left; simpa using h
  | cons ev rest ih =>
    rcases ih (m := recordStep m ev) (by simpa using h) with h' | h'
    · rcases mem_mapSet h' with h'' | h''
      · left; exact h''
      · right; rw [h'']; simp
    · right; exact List.mem_cons_of_mem _ h'

theorem mapGet_cons (pk : FlagKey) (pv : FlaggedContent) (k : FlagKey)
    (rest : List (FlagKey × FlaggedContent)) :
    mapGet k ((pk, pv) :: rest) = if pk = k then some pv else mapGet k rest := rfl

theorem mapGet_map_of_any {m : List (FlagKey × FlaggedContent)} {k : FlagKey}
    (v : FlaggedContent) (h : m.any (fun p => p.1 = k) = true) :
    mapGet k (m.map fun p => if p.1 = k then (k, v) else p) = some v := by
  induction m with
  | nil => simp at h
  | cons p rest ih =>
    obtain ⟨pk, pv⟩ := p
    rw [List.map_cons]
    by_cases hk : pk = k
    · rw [if_pos hk, mapGet_cons, if_pos rfl]
    · rw [if_neg hk, mapGet_cons, if_neg hk]
      refine ih ?_
      rcases List.any_eq_true.mp h with ⟨a, ha, hak⟩
      rcases List.mem_cons.mp ha with rfl | ha'
      · exact absurd (of_decide_eq_true hak) hk
      · exact List.any_eq_true.mpr ⟨a, ha', hak⟩

theorem mapGet_append_of_not_any {m : List (FlagKey × FlaggedContent)} {k : FlagKey}
    (v : FlaggedContent) (h : m.any (fun p => p.1 = k) = false) :
    mapGet k (m ++ [(k, v)]) = some v := by
  induction m with
  | nil => rw [List.nil_append, mapGet_cons, if_pos rfl]
  | cons p rest ih =>
    obtain ⟨pk, pv⟩ := p
    have hk : ¬pk = k := by
      intro hc
      rw [List.any_cons] at h
      simp [hc] at h
    rw [List.cons_append, mapGet_cons, if_neg hk]
    refine ih ?_
    rw [List.any_cons] at h
    exact (Bool.or_eq_false_iff.mp h).2

theorem mapGet_mapSet_self (m : List (FlagKey × FlaggedContent)) (k : FlagKey)
    (v : FlaggedContent) : mapGet k (mapSet m k v) = some v := by
  by_cases hm : m.any (fun p => p.1 = k) = true
  · rw [mapSet, if_pos hm]
    exact mapGet_map_of_any v hm
  · rw [mapSet, if_neg hm]
    exact mapGet_append_of_not_any v (Bool.eq_false_iff.mpr hm)

theorem mapGet_map_of_ne {m : List (FlagKey × FlaggedContent)} {k k' : FlagKey}
    (v : FlaggedContent) (h : k' ≠ k) :
    mapGet k (m.map fun p => if p.1 = k' then (k', v) else p) = mapGet k m := by
  induction m with
  | nil => rfl
  | cons p rest ih =>
    obtain ⟨pk, pv⟩ := p
    rw [List.map_cons]
    by_cases hp : pk = k'
    · rw [if_pos hp, mapGet_cons, mapGet_cons, if_neg h, if_neg (hp ▸ h), ih]
    · rw [if_neg hp, mapGet_cons, mapGet_cons, ih]

theorem mapGet_append_of_ne {m : List (FlagKey × FlaggedContent)} {k k' : FlagKey}
    (v : FlaggedContent) (h : k' ≠ k) :
    mapGet k (m ++ [(k', v)]) = mapGet k m := by
  induction m with
  | nil => rw [List.nil_append, mapGet_cons, if_neg h]
  | cons p rest ih =>
    obtain ⟨pk, pv⟩ := p
    rw [List.cons_append, mapGet_cons, mapGet_cons, ih]

theorem mapGet_mapSet_ne (m : List (FlagKey × FlaggedContent)) {k k' : FlagKey}
    (v : FlaggedContent) (h : k' ≠ k) : mapGet k (mapSet m k' v) = mapGet k m := by
  by_cases hm : m.any (fun p => p.1 = k') = true
  · rw [mapSet, if_pos hm]
    exact mapGet_map_of_ne v h
  · rw [mapSet, if_neg hm]
    exact mapGet_append_of_ne v h

theorem mapGet_foldl_of_ne {evs : List (FlagKey × FlaggedContent)}
    {m : List (FlagKey × FlaggedContent)} {k : FlagKey}
    (h : ∀ e ∈ evs, e.1 ≠ k) :
    mapGet k (List.foldl recordStep m evs) = mapGet k m := by
  induction evs generalizing m with
  | nil => rfl
  | cons ev rest ih =>
    rw [List.foldl_cons, ih (fun e he => h e (List.mem_cons_of_mem _ he))]
    exact mapGet_mapSet_ne m _ (h ev (List.mem_cons_self _ _))

/-- C7: the FlaggedSet is keyed by the oracle-returned label with
last-write-wins semantics: whatever candidate is recorded last for a key is
the one the final map holds for that key — for every interleaving of record
events, and regardless of the scores involved (in particular even when the
later candidate's score is lower than an earlier one's, as the witness
instantiates). -/
theorem flaggedMap_last_write_wins (es₁ es₂ : List (FlagKey × FlaggedContent))
    (k : FlagKey) (v : FlaggedContent) (h : ∀ e ∈ es₂, e.1 ≠ k) :
    mapGet k (recordEvents (es₁ ++ (k, v) :: es₂)) = some v := by
  unfold recordEvents
  rw [List.foldl_append, List.foldl_cons, mapGet_foldl_of_ne h]
  exact mapGet_mapSet_self _ _ _

/-- Witness for C7: the label `x` is recorded at score 0.99 and then again
at the lower score 0.96; the map ends up holding 0.96. -/
theorem flaggedMap_last_write_wins_witness :
    mapGet (some ('x' :: [])) (recordEvents
      [(some ('x' :: []), ⟨score099, ('u' :: 'u' :: [])⟩),
       (some ('x' :: []), ⟨score096, ('v' :: 'v' :: [])⟩)]) =
      some ⟨score096, ('v' :: 'v' :: [])⟩ :=
  flaggedMap_last_write_wins [(some ('x' :: []), ⟨score099, ('u' :: 'u' :: [])⟩)]
    [] (some ('x' :: [])) ⟨score096, ('v' :: 'v' :: [])⟩ (by simp)

/-! ## Lemmas: what the per-unit lookups record -/

theorem wordEvent_eq_some {oracle : Oracle} {ctx w : Str}
    {key : FlagKey} {fc : FlaggedContent}
    (h : wordEvent oracle ctx w = some (key, fc)) :
    w ∉ ALLOWED_GENERAL ∧ fc.context = w ∧ CONFIG_WORD_THRESHOLD < fc.score ∧
      isAllowedInContextKey key ctx = false ∧
      ∃ hit, oracle w = .ok (some hit) ∧ hit.text = key ∧ hit.score = some fc.score := by
  by_cases hg : w ∈ ALLOWED_GENERAL
  · simp [wordEvent, hg] at h
  · rcases ho : oracle w with u | og
    · simp [wordEvent, hg, ho] at h
    · rcases og with _ | hit
      · simp [wordEvent, hg, ho] at h
      · rcases hs : hit.score with _ | s
        · simp [wordEvent, hg, ho, hs] at h
        · rw [wordEvent, if_neg hg, ho] at h
          dsimp only at h
          rw [hs] at h
          dsimp only at h
          by_cases hc : s ≠ 0 ∧ CONFIG_WORD_THRESHOLD < s
          · rw [if_pos hc] at h
            by_cases ha : isAllowedInContextKey hit.text ctx = true
            · rw [if_pos ha] at h
              exact absurd h (by simp)
            · rw [if_neg ha] at h
              rcases Option.some.inj h with he
              rcases Prod.mk.injEq .. ▸ he with ⟨hkey, hfc⟩
              subst hkey
              subst hfc
              exact ⟨hg, rfl, hc.2, Bool.eq_false_iff.mpr ha, hit, rfl, rfl, hs⟩
          · rw [if_neg hc] at h
            exact absurd h (by simp)

theorem semanticEvent_eq_some {oracle : Oracle} {chunk : Str}
    {key : FlagKey} {fc : FlaggedContent}
    (h : semanticEvent oracle chunk = some (key, fc)) :
    fc.context = chunk ∧ CONFIG_SEMANTIC_THRESHOLD < fc.score ∧
      ∃ hit, oracle chunk = .ok (some hit) ∧ hit.text = key ∧ hit.score = some fc.score := by
  rcases ho : oracle chunk with u | og
  · simp [semanticEvent, ho] at h
  · rcases og with _ | hit
    · simp [semanticEvent, ho] at h
    · rcases hs : hit.score with _ | s
      · simp [semanticEvent, ho, hs] at h
      · rw [semanticEvent, ho] at h
        dsimp only at h
        rw [hs] at h
        dsimp only at h
        by_cases hc : s ≠ 0 ∧ CONFIG_SEMANTIC_THRESHOLD < s
        · rw [if_pos hc] at h
          rcases Option.some.inj h with he
          rcases Prod.mk.injEq .. ▸ he with ⟨hkey, hfc⟩
          subst hkey
          subst hfc
          exact ⟨rfl, hc.2, hit, rfl, rfl, hs⟩
        · rw [if_neg hc] at h
          exact absurd h (by simp)

/-- C6: a semantic-chunk lookup records a candidate keyed by the returned
label, with the chunk as context, exactly when the oracle resolves with a
hit whose (truthy) score strictly exceeds SEMANTIC_THRESHOLD = 0.96 — the
characterization makes no reference to either allowlist, so no exemption is
ever applied to chunk matches — and when the chunk sequence is empty the
request's events are the word events alone (no chunk is evaluated). -/
theorem semanticEvent_iff (oracle : Oracle) (chunk : Str)
    (e : FlagKey × FlaggedContent) (words : List Str) (ctx : Str) :
    (semanticEvent oracle chunk = some e ↔
      ∃ hit s, oracle chunk = .ok (some hit) ∧ hit.score = some s ∧
        s ≠ 0 ∧ CONFIG_SEMANTIC_THRESHOLD < s ∧ e = (hit.text, ⟨s, chunk⟩)) ∧
    requestEvents oracle words [] ctx = words.filterMap (wordEvent oracle ctx) := by
  constructor
  · constructor
    · intro h
      obtain ⟨key, fc⟩ := e
      rcases semanticEvent_eq_some h with ⟨hctx, hlt, hit, ho, htext, hs⟩
      refine ⟨hit, fc.score, ho, hs, ?_, hlt, ?_⟩
      · intro h0
        rw [h0] at hlt
        exact absurd hlt (by decide)
      · rw [htext, ← hctx]
    · rintro ⟨hit, s, ho, hs, h0, hlt, rfl⟩
      rw [semanticEvent, ho]
      dsimp only
      rw [hs]
      dsimp only
      rw [if_pos ⟨h0, hlt⟩]
  · simp [requestEvents]

/-- C5: a word of the general allowlist is never queried at word level — its
word event is `none` for every oracle and a throwing oracle entry for it
cannot reject the request — and the short-circuit does not apply to
semantic-chunk lookups: a chunk equal to that very word is still queried
and still records a match when its score clears the semantic threshold. -/
theorem allowlisted_word_never_queried (oracle : Oracle) (ctx w : Str)
    (h : w ∈ ALLOWED_GENERAL) :
    wordEvent oracle ctx w = none ∧ wordThrows oracle w = false ∧
      ∀ hit s, oracle w = .ok (some hit) → hit.score = some s → s ≠ 0 →
        CONFIG_SEMANTIC_THRESHOLD < s →
        semanticEvent oracle w = some (hit.text, ⟨s, w⟩) := by
  refine ⟨by simp [wordEvent, h], by simp [wordThrows, h], ?_⟩
  intro hit s ho hs h0 hlt
  rw [semanticEvent, ho]
  dsimp only
  rw [hs]
  dsimp only
  rw [if_pos ⟨h0, hlt⟩]

/-- Witness for C5: `black` is in the general allowlist, so even against an
oracle that answers every query with a 0.99 hit its word event is `none`
and it cannot throw; as a semantic chunk the same string still records the
0.99 match. -/
theorem allowlisted_word_never_queried_witness :
    ('b' :: 'l' :: 'a' :: 'c' :: 'k' :: []) ∈ ALLOWED_GENERAL ∧
    wordEvent blackOracle [] ('b' :: 'l' :: 'a' :: 'c' :: 'k' :: []) = none ∧
    wordThrows blackOracle ('b' :: 'l' :: 'a' :: 'c' :: 'k' :: []) = false ∧
    semanticEvent blackOracle ('b' :: 'l' :: 'a' :: 'c' :: 'k' :: []) =
      some (some ('b' :: 'l' :: 'a' :: 'c' :: 'k' :: []),
        ⟨score099, ('b' :: 'l' :: 'a' :: 'c' :: 'k' :: [])⟩) := by
  have h : ('b' :: 'l' :: 'a' :: 'c' :: 'k' :: []) ∈ ALLOWED_GENERAL := by decide
  have hmain := allowlisted_word_never_queried blackOracle []
    ('b' :: 'l' :: 'a' :: 'c' :: 'k' :: []) h
  exact ⟨h, hmain.1, hmain.2.1,
    hmain.2.2 ⟨some score099, some ('b' :: 'l' :: 'a' :: 'c' :: 'k' :: [])⟩
      score099 rfl rfl (by decide) (by decide)⟩

/-- C4: when the oracle returns, for a word-level lookup, a label whose
context-specific allow list has an entry occurring in the full sanitized
message, that lookup records nothing — whatever the score — and a label
with no context-specific entry is never exempt. -/
theorem context_allowlisted_label_not_flagged (oracle : Oracle) (ctx w lab : Str) :
    ((∃ hit, oracle w = .ok (some hit) ∧ hit.text = some lab) →
      isAllowedInContext lab ctx = true → wordEvent oracle ctx w = none) ∧
    (lookupKeyList lab CONTEXT_SPECIFIC = none → isAllowedInContext lab ctx = false) := by
  constructor
  · rintro ⟨hit, ho, htext⟩ hallow
    by_cases hg : w ∈ ALLOWED_GENERAL
    · simp [wordEvent, hg]
    · rcases hs : hit.score with _ | s
      · simp [wordEvent, hg, ho, hs]
      · rw [wordEvent, if_neg hg, ho]
        dsimp only
        rw [hs]
        dsimp only
        have hkey : isAllowedInContextKey hit.text ctx = true := by
          rw [htext, isAllowedInContextKey, hallow]
        rw [hkey]
        simp
  · intro h
    rw [isAllowedInContext, h]

/-- Witness for C4: the oracle labels the word `blak` as `black` at 0.99;
the full context contains `black belt`, which is in `black`'s allow list,
so the word-level lookup records nothing despite the 0.99 score. -/
theorem context_allowlisted_label_not_flagged_witness :
    isAllowedInContext ('b' :: 'l' :: 'a' :: 'c' :: 'k' :: [])
      ('b' :: 'l' :: 'a' :: 'c' :: 'k' :: ' ' :: 'b' :: 'e' :: 'l' :: 't' :: []) = true ∧
    wordEvent blackOracle
      ('b' :: 'l' :: 'a' :: 'c' :: 'k' :: ' ' :: 'b' :: 'e' :: 'l' :: 't' :: [])
      ('b' :: 'l' :: 'a' :: 'k' :: []) = none := by
  have hallow : isAllowedInContext ('b' :: 'l' :: 'a' :: 'c' :: 'k' :: [])
      ('b' :: 'l' :: 'a' :: 'c' :: 'k' :: ' ' :: 'b' :: 'e' :: 'l' :: 't' :: []) = true := by
    decide
  exact ⟨hallow,
    (context_allowlisted_label_not_flagged blackOracle
        ('b' :: 'l' :: 'a' :: 'c' :: 'k' :: ' ' :: 'b' :: 'e' :: 'l' :: 't' :: [])
        ('b' :: 'l' :: 'a' :: 'k' :: []) ('b' :: 'l' :: 'a' :: 'c' :: 'k' :: [])).1
      ⟨⟨some score099, some ('b' :: 'l' :: 'a' :: 'c' :: 'k' :: [])⟩, rfl, rfl⟩ hallow⟩

/-! ## Error behaviour of a request (C1) -/

/-- C1 counterexample: against `throwOracle` the lookup for `aa` throws
while the lookup for `bb` resolves at 0.99 > WORD_THRESHOLD and records a
match; yet the whole analysis errors (surfaced as a 500 by the route
handler) instead of reflecting the successful match — a per-unit oracle
failure is not recovered locally when the call throws. -/
theorem thrown_lookup_aborts_request :
    wordEvent throwOracle ('a' :: 'a' :: ' ' :: 'b' :: 'b' :: []) ('b' :: 'b' :: []) =
      some (some ('x' :: 'x' :: []), ⟨score099, ('b' :: 'b' :: [])⟩) ∧
    analyzeContent throwOracle [('a' :: 'a' :: []), ('b' :: 'b' :: [])] []
      ('a' :: 'a' :: ' ' :: 'b' :: 'b' :: []) = .error () := by
  constructor
  · decide
  · decide

/-- C1 (amended): the analysis errors exactly when some issued lookup's
promise rejects (a word not in the general allowlist, or — when chunks
exist — a chunk, whose query throws); an oracle call that resolves with an
empty or score-less response is treated as no match for that unit only; and
whenever no issued lookup throws the analysis completes with the result
aggregated from the recorded events of the units that did match. -/
theorem oracle_failure_behaviour (oracle : Oracle) (words semantics : List Str)
    (ctx : Str) :
    (analyzeContent oracle words semantics ctx = .error () ↔
      (words.any (wordThrows oracle) = true ∨
        (0 < semantics.length ∧ semantics.any (fun c => isThrow (oracle c)) = true))) ∧
    (∀ u, oracle u = .ok none →
      wordEvent oracle ctx u = none ∧ semanticEvent oracle u = none) ∧
    (∀ u hit, oracle u = .ok (some hit) → hit.score = none →
      wordEvent oracle ctx u = none ∧ semanticEvent oracle u = none) ∧
    (words.any (wordThrows oracle) = false →
      semantics.any (fun c => isThrow (oracle c)) = false →
      analyzeContent oracle words semantics ctx =
        .ok (buildResult (findHighestScore (flaggedSet oracle words semantics ctx)))) := by
  refine ⟨?_, ?_, ?_, ?_⟩
  · by_cases hw : words.any (wordThrows oracle) = true
    · rw [analyzeContent, if_pos hw]
      simp [hw]
    · by_cases hs : 0 < semantics.length ∧ semantics.any (fun c => isThrow (oracle c)) = true
      · rw [analyzeContent, if_neg hw, if_pos hs]
        simp [hs]
      · rw [analyzeContent, if_neg hw, if_neg hs]
        constructor
        · intro hcontra
          exact absurd hcontra (by simp)
        · rintro (hcontra | hcontra)
          · exact absurd hcontra hw
          · exact absurd hcontra hs
  · intro u hu
    constructor
    · by_cases hg : u ∈ ALLOWED_GENERAL
      · simp [wordEvent, hg]
      · simp [wordEvent, hg, hu]
    · simp [semanticEvent, hu]
  · intro u hit hu hsc
    constructor
    · by_cases hg : u ∈ ALLOWED_GENERAL
      · simp [wordEvent, hg]
      · simp [wordEvent, hg, hu, hsc]
    · simp [semanticEvent, hu, hsc]
  · intro hw hs
    rw [analyzeContent, if_neg (by simp [hw]), if_neg (by simp [hs])]

/-- Witness for C1 (amended): two words, one of which the oracle knows
nothing about (`uu` hits at 0.97, the other resolves empty); nothing
throws, so the analysis completes and reflects the successful match. -/
theorem oracle_failure_behaviour_witness :
    twoLabelOracle ('z' :: 'z' :: []) = .ok none ∧
    analyzeContent twoLabelOracle [('z' :: 'z' :: []), ('u' :: 'u' :: [])] []
      ('z' :: 'z' :: ' ' :: 'u' :: 'u' :: []) =
      .ok ⟨true, score097, some ('x' :: 'x' :: []), some ('u' :: 'u' :: [])⟩ := by
  have hmain := oracle_failure_behaviour twoLabelOracle
    [('z' :: 'z' :: []), ('u' :: 'u' :: [])] []
    ('z' :: 'z' :: ' ' :: 'u' :: 'u' :: [])
  refine ⟨rfl, ?_⟩
  have hdone := hmain.2.2.2 (by decide) (by decide)
  rw [hdone]
  decide

/-! ## Request validation (C3) -/

/-- C3 counterexample: the single-space message is empty after trimming,
yet it is not rejected — it passes validation and is processed to a clean
result (the code tests `!message`, raw JS falsiness, not emptiness after
trimming). -/
theorem whitespace_message_not_rejected :
    jsTrim (' ' :: []) = [] ∧
    handleDetection nullOracle (' ' :: []) =
      .analyzed (.ok ⟨false, 0, none, none⟩) := by
  constructor
  · decide
  · decide

/-- C3 (amended): a request is rejected before any processing exactly when
the raw message is the empty string (JS falsiness, not emptiness after
trimming), or the length of its raw `split(/\s+/)` — which counts an empty
boundary segment when the message starts or ends with whitespace — exceeds
MAX_WORDS = 35, or its character count exceeds MAX_CHARS = 1000; every
other message is sanitized, split and analyzed. -/
theorem validation_rejects_iff (oracle : Oracle) (message : Str) :
    ((∃ e, handleDetection oracle message = .rejected e) ↔
      (message = [] ∨ CONFIG_MAX_WORDS < (jsSplitWs message).length ∨
        CONFIG_MAX_CHARS < message.length)) ∧
    (validateRequest message = none →
      handleDetection oracle message = .analyzed
        (analyzeContent oracle (splitIntoWords (sanitizeText message))
          (splitIntoSemantics (sanitizeText message)) (sanitizeText message))) := by
  constructor
  · by_cases h1 : message = []
    · subst h1
      simp [handleDetection, validateRequest]
    · have hlen : ¬message.length = 0 := by
        simpa using (List.length_eq_zero).not.mpr h1
      by_cases h2 : CONFIG_MAX_WORDS < (jsSplitWs message).length ∨
          CONFIG_MAX_CHARS < message.length
      · rw [handleDetection, validateRequest, if_neg hlen, if_pos h2]
        simp [h1, h2]
      · rw [handleDetection, validateRequest, if_neg hlen, if_neg h2]
        simp [h1, h2]
  · intro hv
    rw [handleDetection, hv]
    rfl

/-- Witness for C3 (amended): a short ordinary message passes validation
and reaches the analyzer. -/
theorem validation_rejects_iff_witness :
    validateRequest ('h' :: 'i' :: []) = none ∧
    handleDetection nullOracle ('h' :: 'i' :: []) = .analyzed
      (analyzeContent nullOracle (splitIntoWords (sanitizeText ('h' :: 'i' :: [])))
        (splitIntoSemantics (sanitizeText ('h' :: 'i' :: [])))
        (sanitizeText ('h' :: 'i' :: []))) := by
  refine ⟨by decide, ?_⟩
  exact (validation_rejects_iff nullOracle ('h' :: 'i' :: [])).2 (by decide)

/-! ## Lemmas: sanitization (C9) -/

theorem toNat_ofNat_valid (n : Nat) (h : n.isValidChar) : (Char.ofNat n).toNat = n := by
  rw [Char.ofNat, dif_pos h]
  rcases h with h | h
  · rfl
  · rfl

theorem jsToLower_eq_of_upper {c : Char} (h : 65 ≤ c.toNat ∧ c.toNat ≤ 90) :
    jsToLower c = Char.ofNat (c.toNat + 32) := by
  rw [jsToLower, if_pos h]

theorem jsToLower_eq_of_not_upper {c : Char} (h : ¬(65 ≤ c.toNat ∧ c.toNat ≤ 90)) :
    jsToLower c = c := by
  rw [jsToLower, if_neg h]

theorem jsToLower_idem (c : Char) : jsToLower (jsToLower c) = jsToLower c := by
  by_cases h : 65 ≤ c.toNat ∧ c.toNat ≤ 90
  · rw [jsToLower_eq_of_upper h]
    refine jsToLower_eq_of_not_upper ?_
    rw [toNat_ofNat_valid _ (Or.inl (by omega))]
    omega
  · rw [jsToLower_eq_of_not_upper h, jsToLower_eq_of_not_upper h]

theorem map_id_of_forall {l : List Char} {f : Char → Char}
    (h : ∀ c ∈ l, f c = c) : l.map f = l := by
  induction l with
  | nil => rfl
  | cons c cs ih =>
    rw [List.map_cons, h c (List.mem_cons_self _ _),
      ih (fun a ha => h a (List.mem_cons_of_mem _ ha))]

theorem mem_of_mem_jsTrim {c : Char} {l : List Char} (h : c ∈ jsTrim l) : c ∈ l := by
  rw [jsTrim] at h
  have h1 := (List.dropWhile_suffix isSpaceJS).subset h
  rw [List.mem_reverse] at h1
  have h2 := (List.dropWhile_suffix isSpaceJS).subset h1
  rwa [List.mem_reverse] at h2

theorem head_of_dropWhile_not {p : Char → Bool} {l rest : List Char} {c : Char}
    (h : l.dropWhile p = c :: rest) : p c = false := by
  have hh := List.head?_dropWhile_not p l
  rw [h] at hh
  simpa using hh

theorem dropWhile_idem (p : Char → Bool) (l : List Char) :
    List.dropWhile p (List.dropWhile p l) = List.dropWhile p l := by
  rcases hd : List.dropWhile p l with _ | ⟨c, rest⟩
  · rfl
  · rw [List.dropWhile_cons, head_of_dropWhile_not hd]
    simp

theorem jsTrim_idem (l : List Char) : jsTrim (jsTrim l) = jsTrim l := by
  have hrev : (jsTrim l).reverse.dropWhile isSpaceJS = (jsTrim l).reverse := by
    rcases hur : (jsTrim l).reverse with _ | ⟨c, rest⟩
    · rfl
    · have hu_ne : jsTrim l ≠ [] := by
        intro hc
        rw [hc] at hur
        cases hur
      have hlast : (jsTrim l).getLast? = some c := by
        rw [← List.head?_reverse, hur]
        rfl
      obtain ⟨pre, hpre⟩ := List.dropWhile_suffix (l := (l.reverse.dropWhile isSpaceJS).reverse)
        isSpaceJS
      have hpre' : pre ++ jsTrim l = (l.reverse.dropWhile isSpaceJS).reverse := hpre
      have hvlast : ((l.reverse.dropWhile isSpaceJS).reverse).getLast? = some c := by
        rw [← hpre', List.getLast?_append_of_ne_nil pre hu_ne]
        exact hlast
      have hwhead : (l.reverse.dropWhile isSpaceJS).head? = some c := by
        have hr := List.head?_reverse ((l.reverse.dropWhile isSpaceJS).reverse)
        rw [List.reverse_reverse] at hr
        rw [hr]
        exact hvlast
      have hc : isSpaceJS c = false := by
        rcases hwd : l.reverse.dropWhile isSpaceJS with _ | ⟨c', rest'⟩
        · rw [hwd] at hwhead
          cases hwhead
        · rw [hwd] at hwhead
          rcases Option.some.inj hwhead with rfl
          exact head_of_dropWhile_not hwd
      rw [List.dropWhile_cons, hc]
      simp
  show ((jsTrim l).reverse.dropWhile isSpaceJS).reverse.dropWhile isSpaceJS = jsTrim l
  rw [hrev, List.reverse_reverse, jsTrim, dropWhile_idem]

theorem sanitize_chars {x : Str} {c : Char} (h : c ∈ sanitizeText x) :
    jsToLower c = c ∧ (isWordCharJS c || isSpaceJS c) = true := by
  rw [sanitizeText] at h
  have ht := mem_of_mem_jsTrim h
  constructor
  · rcases List.mem_map.mp (List.mem_of_mem_filter ht) with ⟨a, _, ha⟩
    rw [← ha]
    exact jsToLower_idem a
  · exact (List.mem_filter.mp ht).2

/-- C9: `sanitizeText` — lowercase, remove every character that is not
alphanumeric, underscore, or whitespace, then trim — is idempotent. -/
theorem sanitizeText_idem (x : Str) :
    sanitizeText (sanitizeText x) = sanitizeText x := by
  have hmap : (sanitizeText x).map jsToLower = sanitizeText x :=
    map_id_of_forall (fun c hc => (sanitize_chars hc).1)
  have hfilter : (sanitizeText x).filter (fun c => isWordCharJS c || isSpaceJS c) =
      sanitizeText x :=
    List.filter_eq_self.mpr (fun a ha => (sanitize_chars ha).2)
  calc sanitizeText (sanitizeText x)
      = jsTrim (((sanitizeText x).map jsToLower).filter
          (fun c => isWordCharJS c || isSpaceJS c)) := rfl
    _ = jsTrim (sanitizeText x) := by rw [hmap, hfilter]
    _ = sanitizeText x := jsTrim_idem _

/-! ## Lemmas: the chunker (C8) -/

theorem wagStep_flatten (c : Char) (acc : Str × List (Str × Str)) :
    (wagStep c acc).1 ++ wagFlatten (wagStep c acc).2 =
      c :: (acc.1 ++ wagFlatten acc.2) := by
  obtain ⟨g, pairs⟩ := acc
  rw [wagStep.eq_def]
  by_cases hc : isSpaceJS c = true
  · rw [if_pos hc]
    rfl
  · rw [if_neg hc]
    rcases g with _ | ⟨gc, grest⟩
    · rcases pairs with _ | ⟨⟨w, tg⟩, rest⟩
      · rfl
      · rfl
    · rfl

theorem wag_flatten (s : Str) :
    (wordsAndGaps s).1 ++ wagFlatten (wordsAndGaps s).2 = s := by
  induction s with
  | nil => rfl
  | cons c cs ih =>
    rw [wordsAndGaps, List.foldr_cons]
    rw [show List.foldr wagStep ([], []) cs = wordsAndGaps cs from rfl]
    rw [wagStep_flatten, ih]

theorem wordsAndGaps_fst_nil {s : Str}
    (h : ∀ c rest, s = c :: rest → isSpaceJS c = false) :
    (wordsAndGaps s).1 = [] := by
  rcases s with _ | ⟨c, cs⟩
  · rfl
  · have hc := h c cs rfl
    rw [wordsAndGaps, List.foldr_cons]
    rcases hacc : List.foldr wagStep ([], []) cs with ⟨g, pairs⟩
    rw [wagStep.eq_def, if_neg (by simp [hc])]
    rcases g with _ | ⟨gc, gr⟩ <;> rcases pairs with _ | ⟨⟨w, tg⟩, pr⟩ <;> rfl

theorem sanitizeText_head_not_space {x : Str} {c : Char} {rest : Str}
    (h : sanitizeText x = c :: rest) : isSpaceJS c = false := by
  rw [sanitizeText, jsTrim] at h
  exact head_of_dropWhile_not h

theorem le_fitGo (parts : List (Str × Str)) (len n : Nat) (h : 0 < n) :
    n ≤ fitGo parts len n := by
  induction parts generalizing len n with
  | nil => simp [fitGo]
  | cons p ps ih =>
    rw [fitGo, if_neg (by omega)]
    by_cases h1 : len + pairLen p ≤ CONFIG_CHUNK_SIZE
    · rw [if_pos h1]
      calc n ≤ n + 1 := Nat.le_succ n
        _ ≤ fitGo ps (len + pairLen p) (n + 1) := ih _ _ (Nat.succ_pos n)
    · rw [if_neg h1]

theorem fitCount_pos (p : Str × Str) (ps : List (Str × Str)) :
    1 ≤ fitCount (p :: ps) := by
  rw [fitCount, fitGo, if_pos rfl]
  exact le_fitGo ps _ 1 (by omega)

theorem mem_wagFlatten {c : Char} {parts : List (Str × Str)} :
    c ∈ wagFlatten parts ↔ ∃ p ∈ parts, c ∈ p.1 ++ p.2 := by
  rw [wagFlatten]
  constructor
  · intro h
    rcases List.mem_flatten.mp h with ⟨l, hl, hcl⟩
    rcases List.mem_map.mp hl with ⟨p, hp, rfl⟩
    exact ⟨p, hp, hcl⟩
  · rintro ⟨p, hp, hcp⟩
    exact List.mem_flatten.mpr ⟨p.1 ++ p.2, List.mem_map.mpr ⟨p, hp, rfl⟩, hcp⟩

theorem wagFlatten_append (a b : List (Str × Str)) :
    wagFlatten (a ++ b) = wagFlatten a ++ wagFlatten b := by
  rw [wagFlatten, wagFlatten, wagFlatten, List.map_append, List.flatten_append]

theorem chunkGo_coverage (fuel : Nat) (parts : List (Str × Str))
    (hfuel : parts.length ≤ fuel) {c : Char} (hc : c ∈ wagFlatten parts) :
    ∃ ch ∈ chunkGo fuel parts, c ∈ ch := by
  induction fuel generalizing parts with
  | zero =>
    have hnil : parts = [] := List.length_eq_zero.mp (Nat.le_zero.mp hfuel)
    rw [hnil] at hc
    exact absurd hc (by simp [wagFlatten])
  | succ fuel ih =>
    rcases parts with _ | ⟨p, ps⟩
    · exact absurd hc (by simp [wagFlatten])
    · rw [chunkGo]
      by_cases hend : (p :: ps).length ≤ fitCount (p :: ps)
      · rw [if_pos hend]
        refine ⟨wagFlatten ((p :: ps).take (fitCount (p :: ps))), List.mem_singleton.mpr rfl, ?_⟩
        rw [List.take_of_length_le hend]
        exact hc
      · rw [if_neg hend]
        have hk1 : 1 ≤ fitCount (p :: ps) := fitCount_pos p ps
        have hstep1 : 1 ≤ max 1 (fitCount (p :: ps) - ovlCount ((p :: ps).take (fitCount (p :: ps)))) :=
          le_max_left 1 _
        have hstepk : max 1 (fitCount (p :: ps) - ovlCount ((p :: ps).take (fitCount (p :: ps)))) ≤
            fitCount (p :: ps) := by
          apply max_le hk1
          omega
        have hsplit : c ∈ wagFlatten ((p :: ps).take (fitCount (p :: ps))) ∨
            c ∈ wagFlatten ((p :: ps).drop (fitCount (p :: ps))) := by
          have := List.take_append_drop (fitCount (p :: ps)) (p :: ps)
          rw [← this, wagFlatten_append] at hc
          exact List.mem_append.mp hc
        rcases hsplit with hin | hin
        · exact ⟨wagFlatten ((p :: ps).take (fitCount (p :: ps))),
            List.mem_cons_self _ _, hin⟩
        · have hsub : (p :: ps).drop (fitCount (p :: ps)) ⊆
              (p :: ps).drop (max 1 (fitCount (p :: ps) -
                ovlCount ((p :: ps).take (fitCount (p :: ps))))) := by
            intro a ha
            have heq : (p :: ps).drop (fitCount (p :: ps)) =
                List.drop (fitCount (p :: ps) - max 1 (fitCount (p :: ps) -
                  ovlCount ((p :: ps).take (fitCount (p :: ps)))))
                  ((p :: ps).drop (max 1 (fitCount (p :: ps) -
                    ovlCount ((p :: ps).take (fitCount (p :: ps)))))) := by
              rw [List.drop_drop]
              congr 1
              omega
            rw [heq] at ha
            exact List.drop_subset _ _ ha
          have hin' : c ∈ wagFlatten ((p :: ps).drop (max 1 (fitCount (p :: ps) -
              ovlCount ((p :: ps).take (fitCount (p :: ps)))))) := by
            rcases mem_wagFlatten.mp hin with ⟨q, hq, hcq⟩
            exact mem_wagFlatten.mpr ⟨q, hsub hq, hcq⟩
          have hlen : ((p :: ps).drop (max 1 (fitCount (p :: ps) -
              ovlCount ((p :: ps).take (fitCount (p :: ps)))))).length ≤ fuel := by
            rw [List.length_drop]
            have := hfuel
            simp only [List.length_cons] at this ⊢
            omega
          rcases ih _ hlen hin' with ⟨ch, hch, hcch⟩
          exact ⟨ch, List.mem_cons_of_mem _ hch, hcch⟩

/-- C8: every character of a sanitized text of two or more words appears in
at least one produced semantic chunk (coverage), and a text of one word or
fewer produces no chunks at all. -/
theorem chunk_coverage (raw : Str) :
    (2 ≤ (splitIntoWords (sanitizeText raw)).length →
      ∀ c ∈ sanitizeText raw, ∃ ch ∈ splitIntoSemantics (sanitizeText raw), c ∈ ch) ∧
    (∀ t : Str, (splitIntoWords t).length ≤ 1 → splitIntoSemantics t = []) := by
  constructor
  · intro hwords c hc
    rw [splitIntoSemantics, if_neg (by omega), chunkPairs]
    apply chunkGo_coverage _ _ (le_refl _)
    have hfst : (wordsAndGaps (sanitizeText raw)).1 = [] :=
      wordsAndGaps_fst_nil (fun ch rest h => sanitizeText_head_not_space h)
    have hflat := wag_flatten (sanitizeText raw)
    rw [hfst, List.nil_append] at hflat
    rw [hflat]
    exact hc
  · intro t ht
    rw [splitIntoSemantics, if_pos ht]

/-- Witness for C8: the two-word text `ab cd` is covered by its chunks. -/
theorem chunk_coverage_witness :
    2 ≤ (splitIntoWords (sanitizeText ('a' :: 'b' :: ' ' :: 'c' :: 'd' :: []))).length ∧
    ∀ c ∈ sanitizeText ('a' :: 'b' :: ' ' :: 'c' :: 'd' :: []),
      ∃ ch ∈ splitIntoSemantics (sanitizeText ('a' :: 'b' :: ' ' :: 'c' :: 'd' :: [])),
        c ∈ ch :=
  ⟨by decide, (chunk_coverage ('a' :: 'b' :: ' ' :: 'c' :: 'd' :: [])).1 (by decide)⟩

/-! ## Lemmas: the thresholds as decimal fractions -/

theorem CONFIG_WORD_THRESHOLD_eq : CONFIG_WORD_THRESHOLD = 95/100 := by
  rw [CONFIG_WORD_THRESHOLD, Rat.mk'_eq_divInt, Rat.divInt_eq_div]
  norm_num

theorem CONFIG_SEMANTIC_THRESHOLD_eq : CONFIG_SEMANTIC_THRESHOLD = 96/100 := by
  rw [CONFIG_SEMANTIC_THRESHOLD, Rat.mk'_eq_divInt, Rat.divInt_eq_div]
  norm_num

theorem score097_eq : score097 = 97/100 := by
  rw [score097, Rat.mk'_eq_divInt, Rat.divInt_eq_div]
  norm_num

theorem score098_eq : score098 = 98/100 := by
  rw [score098, Rat.mk'_eq_divInt, Rat.divInt_eq_div]
  norm_num

theorem score099_eq : score099 = 99/100 := by
  rw [score099, Rat.mk'_eq_divInt, Rat.divInt_eq_div]
  norm_num

/-! ## Lemmas: aggregation (`findHighestScore`) -/

theorem fhsGo_of_all_le {m : List (FlagKey × FlaggedContent)} {s : ℚ}
    (h : ∀ e ∈ m, e.2.score ≤ s) (acc : Option FlaggedResult) :
    fhsGo m acc s = acc := by
  induction m generalizing acc with
  | nil => rfl
  | cons p rest ih =>
    obtain ⟨k₀, v₀⟩ := p
    rw [fhsGo, if_neg (not_lt.mpr (h (k₀, v₀) (List.mem_cons_self _ _)))]
    exact ih (fun e he => h e (List.mem_cons_of_mem _ he)) acc

theorem fhsGo_found {m : List (FlagKey × FlaggedContent)} {s : ℚ}
    (acc : Option FlaggedResult) (h : ∃ e ∈ m, s < e.2.score) :
    ∃ l₁ k v l₂, m = l₁ ++ (k, v) :: l₂ ∧
      fhsGo m acc s = some ⟨k, v⟩ ∧ s < v.score ∧
      (∀ e ∈ m, e.2.score ≤ v.score) ∧ (∀ e ∈ l₁, e.2.score < v.score) := by
  induction m generalizing acc s with
  | nil =>
    rcases h with ⟨e, he, _⟩
    exact absurd he (List.not_mem_nil e)
  | cons p rest ih =>
    obtain ⟨k₀, v₀⟩ := p
    by_cases h0 : s < v₀.score
    · rw [fhsGo, if_pos h0]
      by_cases hrest : ∃ e ∈ rest, v₀.score < e.2.score
      · rcases ih (some ⟨k₀, v₀⟩) hrest with ⟨l₁, k, v, l₂, hm, hfhs, hlt, hall, hpre⟩
        refine ⟨(k₀, v₀) :: l₁, k, v, l₂, by rw [hm, List.cons_append], hfhs, lt_trans h0 hlt, ?_, ?_⟩
        · intro e he
          rcases List.mem_cons.mp he with rfl | he'
          · exact le_of_lt hlt
          · exact hall e he'
        · intro e he
          rcases List.mem_cons.mp he with rfl | he'
          · exact hlt
          · exact hpre e he'
      · push_neg at hrest
        refine ⟨[], k₀, v₀, rest, rfl, fhsGo_of_all_le hrest _, h0, ?_, ?_⟩
        · intro e he
          rcases List.mem_cons.mp he with rfl | he'
          · exact le_refl _
          · exact hrest e he'
        · intro e he
          exact absurd he (List.not_mem_nil e)
    · rw [fhsGo, if_neg h0]
      have hrest : ∃ e ∈ rest, s < e.2.score := by
        rcases h with ⟨e, he, hlt⟩
        rcases List.mem_cons.mp he with rfl | he'
        · exact absurd hlt h0
        · exact ⟨e, he', hlt⟩
      rcases ih acc hrest with ⟨l₁, k, v, l₂, hm, hfhs, hlt, hall, hpre⟩
      refine ⟨(k₀, v₀) :: l₁, k, v, l₂, by rw [hm, List.cons_append], hfhs, hlt, ?_, ?_⟩
      · intro e he
        rcases List.mem_cons.mp he with rfl | he'
        · exact le_trans (not_lt.mp h0) (le_of_lt hlt)
        · exact hall e he'
      · intro e he
        rcases List.mem_cons.mp he with rfl | he'
        · exact lt_of_le_of_lt (not_lt.mp h0) hlt
        · exact hpre e he'

theorem fhsGo_mem {m : List (FlagKey × FlaggedContent)} {acc : Option FlaggedResult}
    {s : ℚ} {fr : FlaggedResult} (h : fhsGo m acc s = some fr) :
    (fr.flag, fr.details) ∈ m ∨ acc = some fr := by
  induction m generalizing acc s with
  | nil => right; exact h
  | cons p rest ih =>
    obtain ⟨k₀, v₀⟩ := p
    rw [fhsGo] at h
    by_cases h0 : s < v₀.score
    · rw [if_pos h0] at h
      rcases ih h with h' | h'
      · left; exact List.mem_cons_of_mem _ h'
      · left
        rcases Option.some.inj h' with rfl
        exact List.mem_cons_self _ _
    · rw [if_neg h0] at h
      rcases ih h with h' | h'
      · left; exact List.mem_cons_of_mem _ h'
      · right; exact h'

/-! ## Lemmas: entries of the flagged set -/

theorem flaggedSet_entry {oracle : Oracle} {words semantics : List Str} {ctx : Str}
    {e : FlagKey × FlaggedContent} (h : e ∈ flaggedSet oracle words semantics ctx) :
    e ∈ requestEvents oracle words semantics ctx := by
  rcases mem_foldl_recordStep h with h' | h'
  · exact absurd h' (List.not_mem_nil e)
  · exact h'

theorem requestEvents_entry {oracle : Oracle} {words semantics : List Str} {ctx : Str}
    {e : FlagKey × FlaggedContent} (h : e ∈ requestEvents oracle words semantics ctx) :
    (∃ w ∈ words, wordEvent oracle ctx w = some e) ∨
      (∃ c ∈ semantics, semanticEvent oracle c = some e) := by
  rcases List.mem_append.mp h with h' | h'
  · left
    rcases List.mem_filterMap.mp h' with ⟨w, hw, hwe⟩
    exact ⟨w, hw, hwe⟩
  · right
    by_cases hsem : 0 < semantics.length
    · rw [if_pos hsem] at h'
      rcases List.mem_filterMap.mp h' with ⟨c, hc, hce⟩
      exact ⟨c, hc, hce⟩
    · rw [if_neg hsem] at h'
      exact absurd h' (List.not_mem_nil e)

theorem flaggedSet_entry_score {oracle : Oracle} {words semantics : List Str}
    {ctx : Str} {e : FlagKey × FlaggedContent}
    (h : e ∈ flaggedSet oracle words semantics ctx) :
    CONFIG_WORD_THRESHOLD < e.2.score := by
  obtain ⟨key, fc⟩ := e
  rcases requestEvents_entry (flaggedSet_entry h) with ⟨w, _, hw⟩ | ⟨c, _, hc⟩
  · exact (wordEvent_eq_some hw).2.2.1
  · exact lt_trans (by decide) (semanticEvent_eq_some hc).2.1

theorem analyzeContent_ok {oracle : Oracle} {words semantics : List Str}
    {ctx : Str} {r : TextAnalysisResult}
    (h : analyzeContent oracle words semantics ctx = .ok r) :
    r = buildResult (findHighestScore (flaggedSet oracle words semantics ctx)) := by
  by_cases hw : words.any (wordThrows oracle) = true
  · rw [analyzeContent, if_pos hw] at h
    cases h
  · by_cases hsem : 0 < semantics.length ∧ semantics.any (fun c => isThrow (oracle c)) = true
    · rw [analyzeContent, if_neg hw, if_pos hsem] at h
      cases h
    · rw [analyzeContent, if_neg hw, if_neg hsem] at h
      exact (Except.ok.inj h).symm

/-- C2: for a request that completes, if the FlaggedSet is empty the result
is clean with score exactly 0; if it is non-empty the result is flagged
with the label, score and context of the entry of strictly greatest score,
and — because the comparison is strict greater-than over the set's
iteration order — every entry strictly before the winner scores strictly
less, so on exact ties the first-seen entry wins. -/
theorem aggregation_selects_first_maximum (oracle : Oracle)
    (words semantics : List Str) (ctx : Str) (r : TextAnalysisResult)
    (h : analyzeContent oracle words semantics ctx = .ok r) :
    (flaggedSet oracle words semantics ctx = [] → r = ⟨false, 0, none, none⟩) ∧
    (flaggedSet oracle words semantics ctx ≠ [] →
      ∃ l₁ k v l₂, flaggedSet oracle words semantics ctx = l₁ ++ (k, v) :: l₂ ∧
        r = ⟨true, v.score, k, some v.context⟩ ∧
        (∀ e ∈ flaggedSet oracle words semantics ctx, e.2.score ≤ v.score) ∧
        (∀ e ∈ l₁, e.2.score < v.score)) := by
  have hr := analyzeContent_ok h
  constructor
  · intro hempty
    rw [hr, hempty]
    rfl
  · intro hne
    obtain ⟨e0, he0⟩ := List.exists_mem_of_ne_nil _ hne
    have hgt : (-1 : ℚ) < e0.2.score :=
      lt_trans (by decide) (flaggedSet_entry_score he0)
    rcases fhsGo_found none ⟨e0, he0, hgt⟩ with ⟨l₁, k, v, l₂, hm, hfhs, _, hall, hpre⟩
    refine ⟨l₁, k, v, l₂, hm, ?_, hall, hpre⟩
    rw [hr, findHighestScore, hfhs]
    rfl

/-- Witness for C2: two words match different labels at 0.97 and 0.98; the
aggregation reports the 0.98 label with its own context. -/
theorem aggregation_selects_first_maximum_witness :
    ∃ l₁ k v l₂,
      flaggedSet twoLabelOracle [('u' :: 'u' :: []), ('v' :: 'v' :: [])] []
        ('u' :: 'u' :: ' ' :: 'v' :: 'v' :: []) = l₁ ++ (k, v) :: l₂ ∧
      (⟨true, score098, some ('y' :: 'y' :: []), some ('v' :: 'v' :: [])⟩ :
        TextAnalysisResult) = ⟨true, v.score, k, some v.context⟩ ∧
      (∀ e ∈ flaggedSet twoLabelOracle [('u' :: 'u' :: []), ('v' :: 'v' :: [])] []
        ('u' :: 'u' :: ' ' :: 'v' :: 'v' :: []), e.2.score ≤ v.score) ∧
      (∀ e ∈ l₁, e.2.score < v.score) :=
  (aggregation_selects_first_maximum twoLabelOracle
      [('u' :: 'u' :: []), ('v' :: 'v' :: [])] []
      ('u' :: 'u' :: ' ' :: 'v' :: 'v' :: [])
      ⟨true, score098, some ('y' :: 'y' :: []), some ('v' :: 'v' :: [])⟩
      (by decide)).2 (by decide)

/-- C10: a completed request's result satisfies the output invariant: when
flagged, its score strictly exceeds 0.95 (the lower threshold) and is the
recorded score of some unit's oracle match, whose label and context the
result carries; when clean, the score is exactly 0 and no label or context
is present. -/
theorem result_invariant (oracle : Oracle) (words semantics : List Str)
    (ctx : Str) (r : TextAnalysisResult)
    (h : analyzeContent oracle words semantics ctx = .ok r) :
    (r.isImproprio = true →
      CONFIG_WORD_THRESHOLD < r.pontuacao ∧
        ∃ key fc, (key, fc) ∈ flaggedSet oracle words semantics ctx ∧
          r.pontuacao = fc.score ∧ r.flag = key ∧ r.contexto = some fc.context ∧
          ((∃ w ∈ words, wordEvent oracle ctx w = some (key, fc)) ∨
            (∃ c ∈ semantics, semanticEvent oracle c = some (key, fc)))) ∧
    (r.isImproprio = false → r.pontuacao = 0 ∧ r.flag = none ∧ r.contexto = none) := by
  have hr := analyzeContent_ok h
  rcases hfind : findHighestScore (flaggedSet oracle words semantics ctx) with _ | fr
  · rw [hr, hfind]
    refine ⟨fun htrue => absurd htrue (by decide), fun _ => ⟨rfl, rfl, rfl⟩⟩
  · have hmem : (fr.flag, fr.details) ∈ flaggedSet oracle words semantics ctx := by
      rcases fhsGo_mem hfind with h' | h'
      · exact h'
      · cases h'
    rw [hr, hfind]
    refine ⟨fun _ => ⟨flaggedSet_entry_score hmem, fr.flag, fr.details, hmem,
      rfl, rfl, rfl, requestEvents_entry (flaggedSet_entry hmem)⟩,
      fun hfalse => by simp [buildResult] at hfalse⟩

/-- Witness for C10: the 0.97 match against `twoLabelOracle` yields a
flagged result whose score exceeds 0.95 and originates from the word
`uu`'s oracle match. -/
theorem result_invariant_witness :
    CONFIG_WORD_THRESHOLD <
      (⟨true, score097, some ('x' :: 'x' :: []), some ('u' :: 'u' :: [])⟩ :
        TextAnalysisResult).pontuacao ∧
    ∃ key fc, (key, fc) ∈ flaggedSet twoLabelOracle [('u' :: 'u' :: [])] []
        ('u' :: 'u' :: []) ∧
      (⟨true, score097, some ('x' :: 'x' :: []), some ('u' :: 'u' :: [])⟩ :
        TextAnalysisResult).pontuacao = fc.score ∧
      (⟨true, score097, some ('x' :: 'x' :: []), some ('u' :: 'u' :: [])⟩ :
        TextAnalysisResult).flag = key ∧
      (⟨true, score097, some ('x' :: 'x' :: []), some ('u' :: 'u' :: [])⟩ :
        TextAnalysisResult).contexto = some fc.context ∧
      ((∃ w ∈ [('u' :: 'u' :: [])],
          wordEvent twoLabelOracle ('u' :: 'u' :: []) w = some (key, fc)) ∨
        (∃ c ∈ ([] : List Str),
          semanticEvent twoLabelOracle c = some (key, fc))) :=
  (result_invariant twoLabelOracle [('u' :: 'u' :: [])] [] ('u' :: 'u' :: [])
      ⟨true, score097, some ('x' :: 'x' :: []), some ('u' :: 'u' :: [])⟩
      (by decide)).1 rfl

end SafeWord
